import Mathlib

/-!
Verification of the iOS-vcam package construction / repackaging engine.

The Python sources are shallowly embedded: byte sequences become `List Nat`
(each element an octet / ASCII code point), fallible operations return
`Option`, and the stateful file operations become pure functions from the
bytes read to the bytes written.
-/

set_option maxRecDepth 10000

namespace Vcam

/-- ASCII code points of a string literal (all source strings are ASCII). -/
def strB (s : String) : List Nat := s.toList.map (fun c => c.toNat)

/-- Left-justify to width `n` with ASCII spaces, exactly like Python's
`str.ljust(n)` / `f"{x:<n}"`: lists longer than `n` are kept unchanged. -/
def padTo (n : Nat) (xs : List Nat) : List Nat :=
  xs ++ List.replicate (n - xs.length) 32

/-- The ASCII code points that Python's `str.strip()` removes
(characters whose `str.isspace()` is true, restricted to ASCII). -/
def isPySpace (b : Nat) : Bool :=
  b = 9 ∨ b = 10 ∨ b = 11 ∨ b = 12 ∨ b = 13 ∨
  b = 28 ∨ b = 29 ∨ b = 30 ∨ b = 31 ∨ b = 32

/-- Python `str.lstrip()` (whitespace variant). -/
def pyLstrip (xs : List Nat) : List Nat := xs.dropWhile isPySpace

/-- Python `str.rstrip()` (whitespace variant). -/
def pyRstrip (xs : List Nat) : List Nat :=
  (xs.reverse.dropWhile isPySpace).reverse

/-- Python `str.strip()`: drop leading and trailing whitespace. -/
def pyStrip (xs : List Nat) : List Nat := pyRstrip (pyLstrip xs)

/-- Python `str.rstrip('/')`: drop trailing slashes (ASCII 47). -/
def rstripSlash (xs : List Nat) : List Nat :=
  (xs.reverse.dropWhile (fun b => b = 47)).reverse

/-- Python `bytes.decode('ascii', 'ignore')`: keep only bytes below 128. -/
def asciiIgnore (xs : List Nat) : List Nat := xs.filter (fun b => b < 128)

/-- ASCII decimal digit test. -/
def isDigitB (b : Nat) : Bool := 48 ≤ b ∧ b ≤ 57

/-- Fuel-driven decimal rendering of a natural number, most significant
digit first (the fuel wrapper keeps the definition structural so concrete
evaluation reduces in the kernel). -/
def natDigitsF : Nat → Nat → List Nat
  | 0, _ => []
  | f + 1, n => if n < 10 then [48 + n] else natDigitsF f (n / 10) ++ [48 + n % 10]

/-- ASCII decimal digits of `n`, as produced by Python's `str(n)`. -/
def natDigits (n : Nat) : List Nat := natDigitsF (n + 1) n

/-- Value of an ASCII digit list read as a decimal number. -/
def decVal (ds : List Nat) : Nat := ds.foldl (fun a d => a * 10 + (d - 48)) 0

/-- Python `int(text)` restricted to plain non-empty digit strings (the
only shape this code base ever feeds it); anything else is a parse error. -/
def parseDec (ds : List Nat) : Option Nat :=
  if ds ≠ [] ∧ ds.all isDigitB then some (decVal ds) else none

/-- Test that `xs` begins with `pre` (Python `bytes.startswith` / `str.startswith`). -/
def leadsWith (pre xs : List Nat) : Bool := xs.take pre.length = pre

/-- Test that `xs` ends with `suf` (Python `str.endswith`). -/
def trailsWith (suf xs : List Nat) : Bool := leadsWith suf.reverse xs.reverse

/-- Test that `pat` occurs contiguously in `xs` (Python `pat in xs` for bytes/str,
with `pat` non-empty). -/
def hasSub (pat : List Nat) : List Nat → Bool
  | [] => false
  | x :: xs => leadsWith pat (x :: xs) || hasSub pat xs

/-! ## Container codec (simple `ar` archive)

`_add_ar_member` (src/ios/deb_packer.py, duplicated verbatim in
src/ios/change_maintainer.py) writes one member; `write_deb` writes the
whole archive.  `_read_ar_members` (src/ios/ios_deb_ip_changer_final.py)
reads an archive back. -/

/-- The 8-byte global magic `"!<arch>\n"`. -/
def arMagic : List Nat := strB "!<arch>\n"

/-- The 60-byte member header of `_add_ar_member`:
name (16, space padded), mtime `"0"` (12), uid `"0"` (6), gid `"0"` (6),
mode `"100644"` (8), decimal size (10), terminator `` 0x60 0x0A ``. -/
def encHeader (name : List Nat) (size : Nat) : List Nat :=
  padTo 16 name ++ padTo 12 [48] ++ padTo 6 [48] ++ padTo 6 [48] ++
    padTo 8 (strB "100644") ++ padTo 10 (natDigits size) ++ [96, 10]

/-- Header, content, and the single `"\n"` pad byte written after
odd-length content. -/
def encMember (name content : List Nat) : List Nat :=
  encHeader name content.length ++ content ++
    (if content.length % 2 = 1 then [10] else [])

/-- The checks `_add_ar_member` performs before writing: the name fits in
16 characters, the header text is ASCII-encodable (the name is its only
variable part), and the rendered header is exactly 60 bytes. -/
def memberOk (name content : List Nat) : Bool :=
  name.length ≤ 16 ∧ name.all (fun b => b < 128) ∧
    (encHeader name content.length).length = 60

/-- Serialize the member list, failing (as the Python writer raises) on
the first member whose checks fail. -/
def writeArAux : List (List Nat × List Nat) → Option (List Nat)
  | [] => some []
  | (n, c) :: ms =>
    if memberOk n c then (writeArAux ms).map (fun r => encMember n c ++ r)
    else none

/-- The operation `Write(Container) → bytes`: global magic followed by the members. -/
def writeAr (ms : List (List Nat × List Nat)) : Option (List Nat) :=
  (writeArAux ms).map (fun r => arMagic ++ r)

/-- The field `name = hdr[0:16].decode('ascii','ignore').strip().rstrip('/')` where
`hdr` is the 60-byte header at the front of `rem`. -/
def memberName (rem : List Nat) : List Nat :=
  rstripSlash (pyStrip (asciiIgnore ((rem.take 60).take 16)))

/-- The field `hdr[48:58].decode('ascii','ignore').strip()`. -/
def sizeFieldRaw (rem : List Nat) : List Nat :=
  pyStrip (asciiIgnore (((rem.take 60).drop 48).take 10))

/-- The fallback `size_txt ... or '0'`: empty text counts as `"0"`. -/
def sizeField (rem : List Nat) : List Nat :=
  if sizeFieldRaw rem = [] then [48] else sizeFieldRaw rem

/-- What remains after one member: skip the header, the `size` content
bytes, and one pad byte when `size` is odd. -/
def restAfter (size : Nat) (rem : List Nat) : List Nat :=
  ((rem.drop 60).drop size).drop (if size % 2 = 1 then 1 else 0)

/-- Body of the `while True` loop of `_read_ar_members`, with explicit
fuel (one unit per member; the caller passes the byte count, which is an
upper bound because every iteration consumes at least 60 bytes).
Per iteration: stop at end of input; a remainder shorter than 60 bytes is
a truncated-header error (`none`); otherwise the member name and decimal
size come out of the header, `size` content bytes follow, plus one pad
byte when `size` is odd. -/
def readLoop : Nat → List Nat → Option (List (List Nat × List Nat))
  | _, [] => some []
  | 0, _ :: _ => none
  | fuel + 1, b :: bs =>
    if (b :: bs).length < 60 then none
    else
      match parseDec (sizeField (b :: bs)) with
      | none => none
      | some size =>
        match readLoop fuel (restAfter size (b :: bs)) with
        | none => none
        | some ms =>
          some ((memberName (b :: bs), ((b :: bs).drop 60).take size) :: ms)

/-- The operation `Read(bytes) → Container` (`_read_ar_members`): check the global
magic, then read members until the input is exhausted. -/
def readAr (bs : List Nat) : Option (List (List Nat × List Nat)) :=
  if bs.take 8 = arMagic then readLoop bs.length (bs.drop 8) else none

/-- Function `write_deb` (src/ios/deb_packer.py): magic, then the three members
`debian-binary` (content `"2.0\n"`), `control.tar.gz`, `data.tar.lzma`. -/
def writeDeb (control data : List Nat) : Option (List Nat) :=
  writeAr [(strB "debian-binary", strB "2.0\n"),
           (strB "control.tar.gz", control),
           (strB "data.tar.lzma", data)]

/-! ## Legacy stream codec (LZMA-alone vs XZ framing)

The compressor itself is the external `lzma` library
(`lzma.compress(data, format=lzma.FORMAT_ALONE, preset=6)` in
`compress_lzma_alone` and `_assemble_deb`); only its framing is modelled. -/

/-- The 6-byte magic of the modern multi-stream (XZ) framing:
`FD 37 7A 58 5A 00`. -/
def xzMagicBytes : List Nat := [253, 55, 122, 88, 90, 0]

/-- Modelled from the spec: the legacy single-stream (LZMA-alone) header
produced by the external `lzma.compress(format=FORMAT_ALONE, preset=6)`
call — the properties byte (93 = 0x5D for lc=3, lp=0, pb=2), the 4-byte
little-endian dictionary size (8 MiB = `00 00 80 00`), and the 8-byte
unknown-length field (all `FF`). -/
def lzmaAloneHeader : List Nat := [93, 0, 0, 128, 0] ++ List.replicate 8 255

/-- Modelled from the spec: `Compress` — the legacy header followed
directly by encoder output.  The entropy-coded body is the external
library's concern and is kept abstract as `body`. -/
def lzmaCompressAlone (body : List Nat → List Nat) (data : List Nat) : List Nat :=
  lzmaAloneHeader ++ body data

/-- Modelled from the spec: the framing check of the legacy decoder
(`lzma.decompress(format=FORMAT_ALONE)`): the stream must be at least a
13-byte header, and the first byte must be a valid properties byte, i.e.
at most (4*5+4)*9+8 = 224.  `false` is the `LZMAError` / FormatError
case. -/
def lzmaAloneHeaderOk (bs : List Nat) : Bool :=
  13 ≤ bs.length ∧ bs.headD 0 ≤ 224

/-- The payload-signature verdict of `validate_deb.py` (lines 41–46):
0 = OK (LZMA-alone, signature starts `5D 00 00`), 1 = FAIL (XZ container,
signature starts with `b'\xFD7zXZ'` — the first five magic bytes — or
with `FD 37`), 2 = unknown. -/
def sigVerdict (dataBytes : List Nat) : Nat :=
  let sig := dataBytes.take 6
  if leadsWith [93, 0, 0] sig then 0
  else if leadsWith [253, 55, 122, 88, 90] sig || sig.take 2 = [253, 55] then 1
  else 2

/-! ## Package assembler (`_assemble_deb`) -/

/-- The `add` closure inside `_assemble_deb`: like `encMember` but the
name is truncated to 16 characters (`f"{name:<16}"[:16]`) and no length
checks are made. -/
def encMemberA (name content : List Nat) : List Nat :=
  (padTo 16 name).take 16 ++ padTo 12 [48] ++ padTo 6 [48] ++ padTo 6 [48] ++
    padTo 8 (strB "100644") ++ padTo 10 (natDigits content.length) ++ [96, 10] ++
    content ++ (if content.length % 2 = 1 then [10] else [])

/-- Function `_assemble_deb` (src/ios/ios_deb_ip_changer_final.py): compress the
data tar with the legacy codec when `lzmaAlone` (naming the member
`data.tar.lzma`, else `data.tar` uncompressed), then write magic and the
three members.  The first member's content is the `debian_binary` bytes
taken from the parsed source package, with `"2.0\n"` substituted only
when those bytes are empty (Python truthiness of `debbin`). -/
def assembleDeb (debbin control dataTar : List Nat) (lzmaAlone : Bool)
    (body : List Nat → List Nat) : List Nat :=
  arMagic ++
    encMemberA (strB "debian-binary") (if debbin = [] then strB "2.0\n" else debbin) ++
    encMemberA (strB "control.tar.gz") control ++
    encMemberA (if lzmaAlone then strB "data.tar.lzma" else strB "data.tar")
      (if lzmaAlone then lzmaCompressAlone body dataTar else dataTar)

/-! ## Binary patcher -/

/-- One iteration of the patch loop of `apply_latency_patches`
(src/ios/ios_deb_ip_changer_final.py lines 76–83), as a pure function on
the file bytes: patches whose window `offset .. offset+len(old)` exceeds
the data are skipped (`continue`); otherwise the window is compared with
`old` and, on an exact match, replaced by `new` (bytearray slice
assignment).  The second component is the applied/skipped outcome. -/
def applyOffsetPatch (data : List Nat) (offset : Nat) (old new : List Nat) :
    List Nat × Bool :=
  if data.length < offset + old.length then (data, false)
  else if (data.drop offset).take old.length = old then
    (data.take offset ++ new ++ data.drop (offset + old.length), true)
  else (data, false)

/-- Python `bytes.replace(pat, rep)` for a non-empty `pat`: replace every
non-overlapping occurrence, scanning left to right (fuel-driven so the
definition stays structural; callers pass `xs.length`). -/
def replaceSubF (pat rep : List Nat) : Nat → List Nat → List Nat
  | _, [] => []
  | 0, xs => xs
  | f + 1, x :: xs =>
    if pat ≠ [] ∧ leadsWith pat (x :: xs) then
      rep ++ replaceSubF pat rep f ((x :: xs).drop pat.length)
    else x :: replaceSubF pat rep f xs

/-- Python `bytes.replace`. -/
def replaceSub (pat rep xs : List Nat) : List Nat := replaceSubF pat rep xs.length xs

/-- Python `bytes.count(pat)` (non-overlapping) for non-empty `pat`. -/
def countSubF (pat : List Nat) : Nat → List Nat → Nat
  | _, [] => 0
  | 0, _ => 0
  | f + 1, x :: xs =>
    if pat ≠ [] ∧ leadsWith pat (x :: xs) then
      countSubF pat f ((x :: xs).drop pat.length) + 1
    else countSubF pat f xs

/-- Python `bytes.count`. -/
def countSub (pat xs : List Nat) : Nat := countSubF pat xs.length xs

/-- Function `replace_ip_in_binary` (src/ios/ios_deb_ip_changer_final.py lines
417–450) as a pure function from the file's bytes to the bytes on disk
afterwards, paired with its boolean result.  When the two literals
differ in length the function reports failure before touching the file.
Otherwise it replaces the bare literal (counting occurrences of the new
bytes afterwards), additionally replaces the null-terminated form, and
writes the file back only when the replacement count is positive. -/
def replaceIpInBinary (old new data : List Nat) : List Nat × Bool :=
  if old.length ≠ new.length then (data, false)
  else
    let step1 := hasSub old data
    let d1 := if step1 then replaceSub old new data else data
    let reps1 := if step1 then countSub new d1 else 0
    let step2 := hasSub (old ++ [0]) d1
    let d2 := if step2 then replaceSub (old ++ [0]) (new ++ [0]) d1 else d1
    let reps := reps1 + (if step2 then 1 else 0)
    if 0 < reps then (d2, true) else (data, false)

/-- The branding pattern table of `ios_debrand_end_to_end.py` (byte
lengths 13→13, 21→21, 21→22 — the third pair does not preserve length). -/
def brandPatterns : List (List Nat × List Nat) :=
  [(strB "www.bkatm.com", strB "localhost    "),
   (strB "https://www.bkatm.com", strB "http://localhost     "),
   (strB "Login (www.bkatm.com)", strB "Login                 ")]

/-- Function `patch_branding` (src/ios/ios_debrand_end_to_end.py lines 106–118):
fold over the pattern table; for a pattern present in the data, raise
(`none`) if the lengths differ, else replace every occurrence and add its
occurrence count.  The file is rewritten only at the end, so a raise
leaves it untouched. -/
def patchBrandingAux (acc : List Nat × Nat) :
    List (List Nat × List Nat) → Option (List Nat × Nat)
  | [] => some acc
  | (old, new) :: ps =>
    if hasSub old acc.1 then
      if old.length ≠ new.length then none
      else patchBrandingAux (replaceSub old new acc.1, acc.2 + countSub old acc.1) ps
    else patchBrandingAux acc ps

/-- Function `patch_branding`: final file bytes and replacement count, `none` on
the length-mismatch `RuntimeError`. -/
def patchBranding (data : List Nat) : Option (List Nat × Nat) :=
  (patchBrandingAux (data, 0) brandPatterns).map
    (fun r => (if 0 < r.2 then r.1 else data, r.2))

/-! ## Metadata (control) patcher -/

/-- The code points at which Python `str.splitlines()` breaks lines. -/
def isLineBreak (c : Nat) : Bool :=
  c = 10 ∨ c = 13 ∨ c = 11 ∨ c = 12 ∨ c = 28 ∨ c = 29 ∨ c = 30 ∨
  c = 133 ∨ c = 8232 ∨ c = 8233

/-- Scanner for Python `str.splitlines()`: `acc` is the current line,
reversed.  A final unterminated line is kept; a terminator at the end of
the input does not create an empty last line; `"\r\n"` counts as one
terminator. -/
def slAux : List Nat → List Nat → List (List Nat)
  | acc, [] => if acc = [] then [] else [acc.reverse]
  | acc, 13 :: 10 :: cs => acc.reverse :: slAux [] cs
  | acc, c :: cs =>
    if isLineBreak c then acc.reverse :: slAux [] cs
    else slAux (c :: acc) cs

/-- Python `str.splitlines()`. -/
def pySplitlines (cs : List Nat) : List (List Nat) := slAux [] cs

/-- Python `'\n'.join(lines)`. -/
def joinLines : List (List Nat) → List Nat
  | [] => []
  | [l] => l
  | l :: ls => l ++ 10 :: joinLines ls

/-- Python `'\n'.join(lines) + '\n'`, as written back by
`modify_maintainer`. -/
def joinNL (ls : List (List Nat)) : List Nat := joinLines ls ++ [10]

/-- ASCII lowercase conversion (`str.lower()` restricted to ASCII). -/
def pyLower (cs : List Nat) : List Nat :=
  cs.map (fun c => if 65 ≤ c ∧ c ≤ 90 then c + 32 else c)

/-- The per-line `if/elif` chain of `modify_maintainer`
(src/ios/change_maintainer.py lines 75–98), returning the transformed
lines plus the `maintainer_found` / `author_found` flags.  A missing
author edit (Python's falsy `new_author`, i.e. `None` or an empty
string) is `none`. -/
def mmScan (newM : List Nat) (newA : Option (List Nat)) (rr : Bool) :
    List (List Nat) → List (List Nat) × Bool × Bool
  | [] => ([], false, false)
  | l :: ls =>
    if leadsWith (strB "Maintainer:") l then
      ((strB "Maintainer: " ++ newM) :: (mmScan newM newA rr ls).1, true,
        (mmScan newM newA rr ls).2.2)
    else if leadsWith (strB "Author:") l ∧ newA.isSome then
      ((strB "Author: " ++ newA.getD []) :: (mmScan newM newA rr ls).1,
        (mmScan newM newA rr ls).2.1, true)
    else if leadsWith (strB "Homepage:") l ∧ rr then mmScan newM newA rr ls
    else if leadsWith (strB "Depiction:") l ∧ rr then mmScan newM newA rr ls
    else if hasSub (strB "bkatm") (pyLower l) ∧ rr then mmScan newM newA rr ls
    else (l :: (mmScan newM newA rr ls).1, (mmScan newM newA rr ls).2.1,
      (mmScan newM newA rr ls).2.2)

/-- The two `insert` fallbacks after the scan of `modify_maintainer`:
prepend a `Maintainer:` line when none was found, then insert an
`Author:` line at index 1 (or 0 when no maintainer line was found) when
one was requested but missing.  `r` is the scan result. -/
def mmInsert (newM : List Nat) (newA : Option (List Nat))
    (r : List (List Nat) × Bool × Bool) : List (List Nat) :=
  if newA.isSome ∧ ¬r.2.2 then
    (if r.2.1 then r.1 else (strB "Maintainer: " ++ newM) :: r.1).insertIdx
      (if r.2.1 then 1 else 0) (strB "Author: " ++ newA.getD [])
  else if r.2.1 then r.1 else (strB "Maintainer: " ++ newM) :: r.1

/-- Function `modify_maintainer`: split the control text into lines, rewrite them,
apply the missing-field fallbacks, and join with a trailing newline. -/
def modifyMaintainer (text newM : List Nat) (newA : Option (List Nat))
    (rr : Bool) : List Nat :=
  joinNL (mmInsert newM newA (mmScan newM newA rr (pySplitlines text)))

/-! ## File-archive builders

The tar serialization itself is the external `tarfile` library; the
builders are embedded at the level of the `TarInfo` entry sequence each
of them hands to `tarfile`, which is where the claims live (names, kinds,
modes, ownership, timestamps, order). -/

/-- The `TarInfo` fields this code base sets. `typ` is 0 for a regular
file and 5 for a directory (tarfile's REGTYPE / DIRTYPE). -/
structure TarEntry where
  name : List Nat
  typ : Nat
  mode : Nat
  uid : Nat
  gid : Nat
  uname : List Nat
  gname : List Nat
  mtime : Nat
  content : List Nat
deriving DecidableEq, Repr

/-- A file met by `os.walk`: its arcname (relative path, forward
slashes), its basename, the basename of its parent directory, its bytes,
and its filesystem modification time (the field `tar.gettarinfo` copies
into the entry). -/
structure SrcFile where
  arc : List Nat
  base : List Nat
  parentBase : List Nat
  content : List Nat
  mtime : Nat
deriving DecidableEq, Repr

/-- A directory met by `os.walk`, by arcname. -/
structure SrcDir where
  arc : List Nat
deriving DecidableEq, Repr

/-- One `(root, dirs, files)` triple yielded by `os.walk`. -/
structure WalkDir where
  files : List SrcFile
  dirs : List SrcDir
deriving DecidableEq, Repr

/-- The six recognized Mach-O magic numbers (32/64-bit and fat headers,
both byte orders). -/
def machOMagics : List (List Nat) :=
  [[254, 237, 250, 206], [206, 250, 237, 254],
   [254, 237, 250, 207], [207, 250, 237, 254],
   [202, 254, 186, 190], [190, 186, 254, 202]]

/-- The executable heuristic of the effective `_build_data_tar_from_dir`
(src/ios/ios_deb_ip_changer_final.py lines 295–326): `.dylib`/`.app`
extension, a `/bin/` or `/sbin/` path segment, the main executable of an
`.app` bundle, or a Mach-O magic number in the first 4 bytes. -/
def isExecFile (f : SrcFile) : Bool :=
  trailsWith (strB ".dylib") f.base || trailsWith (strB ".app") f.base ||
  hasSub (strB "/bin/") f.arc || hasSub (strB "/sbin/") f.arc ||
  (hasSub (strB ".app/") f.arc && trailsWith (strB ".app") f.parentBase &&
    f.parentBase.take (f.parentBase.length - 4) = f.base) ||
  machOMagics.contains (f.content.take 4)

/-- The entry built for a file by the effective `_build_data_tar_from_dir`
(the second definition of that name, lines 275–349, which shadows the
first): ownership forced to uid 0 / gid 0 / `root` / `wheel`, mode 755
or 644 by the heuristic, and — since `tinfo.mtime` is never assigned —
the filesystem mtime that `tar.gettarinfo` copied in. -/
def dataFileEntry (f : SrcFile) : TarEntry :=
  { name := f.arc, typ := 0,
    mode := if isExecFile f then 0o755 else 0o644,
    uid := 0, gid := 0, uname := strB "root", gname := strB "wheel",
    mtime := f.mtime, content := f.content }

/-- The entry built for a directory by the same builder: a fresh
`TarInfo` (default mtime 0), DIRTYPE, mode 755, root/wheel. -/
def dataDirEntry (d : SrcDir) : TarEntry :=
  { name := d.arc, typ := 5, mode := 0o755,
    uid := 0, gid := 0, uname := strB "root", gname := strB "wheel",
    mtime := 0, content := [] }

/-- The entry sequence the effective `_build_data_tar_from_dir` hands to
`tarfile`: per walked directory, its files first, then its immediate
subdirectories. -/
def buildDataTarEntries (walk : List WalkDir) : List TarEntry :=
  walk.flatMap (fun w => w.files.map dataFileEntry ++ w.dirs.map dataDirEntry)

/-- The maintainer-script names that `_build_control_tar_gz_from_dir`
gives mode 755. -/
def ctrlScriptNames : List (List Nat) :=
  [strB "postinst", strB "prerm", strB "postrm", strB "preinst", strB "config"]

/-- The entry built for a file by `_build_control_tar_gz_from_dir`
(lines 612–644): root/wheel ownership, 755 for maintainer scripts, 644
otherwise; `tinfo.mtime` again keeps the filesystem value. -/
def ctrlFileEntry (f : SrcFile) : TarEntry :=
  { name := f.arc, typ := 0,
    mode := if ctrlScriptNames.contains f.base then 0o755 else 0o644,
    uid := 0, gid := 0, uname := strB "root", gname := strB "wheel",
    mtime := f.mtime, content := f.content }

/-- The entry sequence of `_build_control_tar_gz_from_dir`: files only
(its walk loop has no directory pass); the result is then gzipped
(externally) with `mtime=0`. -/
def buildControlTarEntries (walk : List WalkDir) : List TarEntry :=
  walk.flatMap (fun w => w.files.map ctrlFileEntry)

/-! ## `rglob`-based builders (deb_packer.py / change_maintainer.py) -/

/-- An entry yielded by `Path.rglob("*")`: its path relative to the root,
as components, and whether it is a directory. -/
structure RgEntry where
  path : List (List Nat)
  isDir : Bool
deriving DecidableEq, Repr

/-- Function `build_data_tar` of src/ios/deb_packer.py (also `build_control_tar`
there): one `rglob` pass adding every directory, then a second adding
every file, so the archive lists all directory entries before all file
entries, each pass in `rglob` order. -/
def buildDataTarPk (tree : List RgEntry) : List RgEntry :=
  tree.filter (fun e => e.isDir) ++ tree.filter (fun e => !e.isDir)

/-- Function `build_data_tar` of src/ios/change_maintainer.py: a single `rglob`
pass keeping only files — directories are never added. -/
def buildDataTarCM (tree : List RgEntry) : List RgEntry :=
  tree.filter (fun e => !e.isDir)

/-- Path `p` is a strict ancestor of path `q`. -/
def strictAnc (p q : List (List Nat)) : Prop := p ≠ q ∧ q.take p.length = p

instance (p q : List (List Nat)) : Decidable (strictAnc p q) := by
  unfold strictAnc; infer_instance

/-- All ordered pairs of a list satisfy `R` (a Boolean `List.Pairwise`). -/
def pairB (R : RgEntry → RgEntry → Bool) : List RgEntry → Bool
  | [] => true
  | x :: xs => xs.all (R x) && pairB R xs

/-- Property of `rglob`: it yields every directory before anything inside it: no entry is
followed by one of its ancestors. -/
def ancFirst (x y : RgEntry) : Bool := !decide (strictAnc y.path x.path)

/-- The ordering the claim asks of the archive: no entry is followed by a
directory entry for one of its ancestor directories (so every directory
entry precedes all entries below that directory). -/
def dirBefore (x y : RgEntry) : Bool :=
  !(y.isDir && decide (strictAnc y.path x.path))

/-! ## Decimal rendering lemmas -/

theorem decVal_append_digit (xs : List Nat) (d : Nat) :
    decVal (xs ++ [d]) = decVal xs * 10 + (d - 48) := by
  simp [decVal, List.foldl_append]

theorem natDigitsF_spec : ∀ f n, n < f →
    natDigitsF f n ≠ [] ∧ (natDigitsF f n).all isDigitB = true ∧
      decVal (natDigitsF f n) = n := by
  intro f
  induction f with
  | zero => omega
  | succ f ih =>
    intro n hn
    by_cases h10 : n < 10
    · refine ⟨by simp [natDigitsF, h10], ?_, ?_⟩
      · simp [natDigitsF, h10, isDigitB]; omega
      · simp [natDigitsF, h10, decVal]
    · have hdiv : n / 10 < f := by omega
      obtain ⟨hne, hall, hval⟩ := ih (n / 10) hdiv
      refine ⟨by simp [natDigitsF, h10], ?_, ?_⟩
      · simp only [natDigitsF, if_neg h10, List.all_append, hall, Bool.true_and,
          List.all_cons, List.all_nil, Bool.and_true]
        simp [isDigitB]; omega
      · simp only [natDigitsF, if_neg h10, decVal_append_digit, hval]
        omega

theorem natDigits_ne_nil (n : Nat) : natDigits n ≠ [] :=
  (natDigitsF_spec (n + 1) n (Nat.lt_succ_self n)).1

theorem natDigits_all_digit (n : Nat) : (natDigits n).all isDigitB = true :=
  (natDigitsF_spec (n + 1) n (Nat.lt_succ_self n)).2.1

theorem decVal_natDigits (n : Nat) : decVal (natDigits n) = n :=
  (natDigitsF_spec (n + 1) n (Nat.lt_succ_self n)).2.2

theorem parseDec_natDigits (n : Nat) : parseDec (natDigits n) = some n := by
  simp [parseDec, natDigits_ne_nil, natDigits_all_digit, decVal_natDigits]

theorem natDigitsF_length_le : ∀ f n k, n < f → n < 10 ^ k → 1 ≤ k →
    (natDigitsF f n).length ≤ k := by
  intro f
  induction f with
  | zero => omega
  | succ f ih =>
    intro n k hn hk h1
    by_cases h10 : n < 10
    · simp [natDigitsF, h10]; omega
    · have h2 : 2 ≤ k := by
        rcases Nat.lt_or_ge k 2 with h | h
        · interval_cases k <;> omega
        · exact h
      have hdiv : n / 10 < f := by omega
      have hkp : n / 10 < 10 ^ (k - 1) := by
        have : 10 ^ k = 10 ^ (k - 1) * 10 := by
          rw [← pow_succ]; congr 1; omega
        rw [this] at hk
        exact Nat.div_lt_of_lt_mul (by omega)
      have := ih (n / 10) (k - 1) hdiv hkp (by omega)
      simp only [natDigitsF, if_neg h10, List.length_append, List.length_cons,
        List.length_nil]
      omega

theorem natDigitsF_lt_pow : ∀ f n, n < f → n < 10 ^ (natDigitsF f n).length := by
  intro f
  induction f with
  | zero => omega
  | succ f ih =>
    intro n hn
    by_cases h10 : n < 10
    · simpa [natDigitsF, h10] using h10
    · have hdiv : n / 10 < f := by omega
      have := ih (n / 10) hdiv
      simp only [natDigitsF, if_neg h10, List.length_append, List.length_cons,
        List.length_nil]
      have hp : 10 ^ ((natDigitsF f (n / 10)).length + (0 + 1)) =
          10 ^ (natDigitsF f (n / 10)).length * 10 := by rw [pow_succ]
      rw [hp]
      omega

theorem natDigits_length_le (n : Nat) (h : n < 10 ^ 10) :
    (natDigits n).length ≤ 10 :=
  natDigitsF_length_le (n + 1) n 10 (Nat.lt_succ_self n) h (by omega)

theorem natDigits_lt_pow (n : Nat) : n < 10 ^ (natDigits n).length :=
  natDigitsF_lt_pow (n + 1) n (Nat.lt_succ_self n)

/-! ## Strip lemmas -/

theorem dropWhile_eq_self_of_all {p : Nat → Bool} {xs : List Nat}
    (h : ∀ a ∈ xs, p a = false) : xs.dropWhile p = xs := by
  cases xs with
  | nil => rfl
  | cons x xs => rw [List.dropWhile_cons, h x (by simp)]; simp

theorem dropWhile_replicate_append {p : Nat → Bool} (h : p 32 = true)
    (k : Nat) (ys : List Nat) :
    (List.replicate k 32 ++ ys).dropWhile p = ys.dropWhile p := by
  induction k with
  | zero => simp
  | succ k ih => simpa [List.replicate_succ, List.dropWhile_cons, h] using ih

theorem pyRstrip_append_spaces (xs : List Nat) (k : Nat) :
    pyRstrip (xs ++ List.replicate k 32) = pyRstrip xs := by
  unfold pyRstrip
  rw [List.reverse_append, List.reverse_replicate,
    dropWhile_replicate_append (by decide)]

theorem pyLstrip_length_le (xs : List Nat) : (pyLstrip xs).length ≤ xs.length :=
  (List.dropWhile_suffix _).length_le

theorem pyRstrip_length_le (xs : List Nat) : (pyRstrip xs).length ≤ xs.length := by
  unfold pyRstrip
  have := (List.dropWhile_suffix (l := xs.reverse) isPySpace).length_le
  simpa using this

theorem pyLstrip_eq_self_of_strip {xs : List Nat} (h : pyStrip xs = xs) :
    pyLstrip xs = xs := by
  have h1 : xs.length ≤ (pyLstrip xs).length := by
    calc xs.length = (pyStrip xs).length := by rw [h]
    _ = (pyRstrip (pyLstrip xs)).length := rfl
    _ ≤ (pyLstrip xs).length := pyRstrip_length_le _
  exact (List.dropWhile_suffix _).eq_of_length
    (Nat.le_antisymm (pyLstrip_length_le xs) h1)

theorem pyRstrip_eq_self_of_strip {xs : List Nat} (h : pyStrip xs = xs) :
    pyRstrip xs = xs := by
  have := pyLstrip_eq_self_of_strip h
  unfold pyStrip at h
  rwa [this] at h

theorem pyStrip_pad {xs : List Nat} (k : Nat) (h : pyStrip xs = xs) :
    pyStrip (xs ++ List.replicate k 32) = xs := by
  cases xs with
  | nil =>
    unfold pyStrip pyLstrip
    rw [List.nil_append]
    have : (List.replicate k 32).dropWhile isPySpace = [] := by
      have := dropWhile_replicate_append (p := isPySpace) (by decide) k []
      simpa using this
    rw [this]
    rfl
  | cons x xs =>
    have hl := pyLstrip_eq_self_of_strip h
    have hx : isPySpace x = false := by
      by_contra hx
      have hx' : isPySpace x = true := by
        cases hh : isPySpace x
        · exact absurd hh hx
        · rfl
      have heq : pyLstrip (x :: xs) = pyLstrip xs := by
        unfold pyLstrip
        rw [List.dropWhile_cons, hx']
        simp
      rw [hl] at heq
      have : (x :: xs).length ≤ xs.length :=
        heq ▸ pyLstrip_length_le xs
      simp at this
    unfold pyStrip pyLstrip
    rw [List.cons_append, List.dropWhile_cons, hx]
    rw [if_neg (by simp), ← List.cons_append, pyRstrip_append_spaces]
    exact pyRstrip_eq_self_of_strip h

/-- Digit strings contain no whitespace, so stripping is the identity. -/
theorem pyStrip_of_all_digit {xs : List Nat} (h : xs.all isDigitB = true) :
    pyStrip xs = xs := by
  have hns : ∀ a ∈ xs, isPySpace a = false := by
    intro a ha
    have := (List.all_eq_true.mp h) a ha
    simp [isDigitB] at this
    simp [isPySpace]
    omega
  unfold pyStrip pyLstrip pyRstrip
  rw [dropWhile_eq_self_of_all hns]
  rw [dropWhile_eq_self_of_all (by intro a ha; exact hns a (by simpa using ha))]
  exact List.reverse_reverse xs

theorem asciiIgnore_eq_self {xs : List Nat} (h : ∀ a ∈ xs, a < 128) :
    asciiIgnore xs = xs := by
  unfold asciiIgnore
  exact List.filter_eq_self.mpr (fun a ha => by simpa using h a ha)

/-! ## Container round-trip machinery -/

/-- The byte sequence of a serialized member list. -/
def encMembers : List (List Nat × List Nat) → List Nat
  | [] => []
  | (n, c) :: ms => encMember n c ++ encMembers ms

theorem padTo_length_of_le {xs : List Nat} {n : Nat} (h : xs.length ≤ n) :
    (padTo n xs).length = n := by
  simp [padTo]; omega

theorem encHeader_split (name : List Nat) (s : Nat) :
    encHeader name s =
      (padTo 16 name ++ padTo 12 [48] ++ padTo 6 [48] ++ padTo 6 [48] ++
        padTo 8 (strB "100644")) ++ (padTo 10 (natDigits s) ++ [96, 10]) := by
  simp [encHeader, List.append_assoc]

theorem strB_100644_length : (strB "100644").length = 6 := by decide

theorem encHeader_length {name : List Nat} {s : Nat} (h16 : name.length ≤ 16)
    (hd : (natDigits s).length ≤ 10) : (encHeader name s).length = 60 := by
  simp [encHeader, padTo, strB_100644_length]
  omega

theorem memberOk_elim {n c : List Nat} (h : memberOk n c = true) :
    n.length ≤ 16 ∧ (∀ b ∈ n, b < 128) ∧ (natDigits c.length).length ≤ 10 := by
  have h' := h
  simp only [memberOk, decide_eq_true_eq] at h'
  obtain ⟨h16, hall, hlen⟩ := h'
  refine ⟨h16, ?_, ?_⟩
  · intro b hb
    have := List.all_eq_true.mp hall b hb
    simpa using this
  · simp [encHeader, padTo, strB_100644_length] at hlen
    omega

theorem memberOk_intro {n c : List Nat} (h16 : n.length ≤ 16)
    (ha : ∀ b ∈ n, b < 128) (hd : (natDigits c.length).length ≤ 10) :
    memberOk n c = true := by
  simp only [memberOk, decide_eq_true_eq]
  refine ⟨h16, List.all_eq_true.mpr (fun b hb => by simpa using ha b hb), ?_⟩
  exact encHeader_length h16 hd

theorem writeArAux_some {ms : List (List Nat × List Nat)} {r : List Nat}
    (h : writeArAux ms = some r) :
    r = encMembers ms ∧ ∀ p ∈ ms, memberOk p.1 p.2 = true := by
  induction ms generalizing r with
  | nil =>
    have h' : ([] : List Nat) = r := Option.some.inj h
    subst h'
    exact ⟨rfl, by simp⟩
  | cons p ms ih =>
    obtain ⟨n, c⟩ := p
    simp only [writeArAux] at h
    by_cases hOk : memberOk n c = true
    · rw [if_pos hOk] at h
      cases hrest : writeArAux ms with
      | none => rw [hrest] at h; simp at h
      | some r' =>
        rw [hrest] at h
        simp only [Option.map_some'] at h
        obtain ⟨he, hall⟩ := ih hrest
        refine ⟨?_, ?_⟩
        · have h2 := Option.some.inj h
          rw [← h2, he]
          rfl
        · intro q hq
          rcases List.mem_cons.mp hq with hq | hq
          · rw [hq]; exact hOk
          · exact hall q hq
    · rw [if_neg hOk] at h; simp at h

/-- The per-member facts the reader needs: how each header field parses
back. -/
theorem take60_encMember {n c : List Nat} (tail : List Nat)
    (h16 : n.length ≤ 16) (hd : (natDigits c.length).length ≤ 10) :
    (encMember n c ++ tail).take 60 = encHeader n c.length := by
  have : encMember n c ++ tail =
      encHeader n c.length ++
        ((c ++ (if c.length % 2 = 1 then [10] else [])) ++ tail) := by
    simp [encMember, List.append_assoc]
  rw [this, List.take_left' (encHeader_length h16 hd)]

theorem drop60_encMember {n c : List Nat} (tail : List Nat)
    (h16 : n.length ≤ 16) (hd : (natDigits c.length).length ≤ 10) :
    (encMember n c ++ tail).drop 60 =
      c ++ ((if c.length % 2 = 1 then [10] else []) ++ tail) := by
  have : encMember n c ++ tail =
      encHeader n c.length ++
        (c ++ ((if c.length % 2 = 1 then [10] else []) ++ tail)) := by
    simp [encMember, List.append_assoc]
  rw [this, List.drop_left' (encHeader_length h16 hd)]

theorem memberName_encMember {n c : List Nat} (tail : List Nat)
    (h16 : n.length ≤ 16) (ha : ∀ b ∈ n, b < 128)
    (hs : pyStrip n = n) (hsl : rstripSlash n = n)
    (hd : (natDigits c.length).length ≤ 10) :
    memberName (encMember n c ++ tail) = n := by
  unfold memberName
  rw [take60_encMember tail h16 hd]
  have hsplit : encHeader n c.length = padTo 16 n ++
      (padTo 12 [48] ++ padTo 6 [48] ++ padTo 6 [48] ++ padTo 8 (strB "100644") ++
        (padTo 10 (natDigits c.length) ++ [96, 10])) := by
    simp [encHeader, List.append_assoc]
  have htake : (encHeader n c.length).take 16 = padTo 16 n := by
    rw [hsplit]
    exact List.take_left' (padTo_length_of_le h16)
  rw [htake]
  have hascii : asciiIgnore (padTo 16 n) = padTo 16 n := by
    apply asciiIgnore_eq_self
    intro a hha
    rcases List.mem_append.mp hha with hmem | hmem
    · exact ha a hmem
    · have := List.eq_of_mem_replicate hmem
      omega
  rw [hascii]
  unfold padTo
  rw [pyStrip_pad _ hs, hsl]

theorem sizeField_encMember {n c : List Nat} (tail : List Nat)
    (h16 : n.length ≤ 16) (hd : (natDigits c.length).length ≤ 10) :
    sizeField (encMember n c ++ tail) = natDigits c.length := by
  have hraw : sizeFieldRaw (encMember n c ++ tail) = natDigits c.length := by
    unfold sizeFieldRaw
    rw [take60_encMember tail h16 hd]
    have hdrop : (encHeader n c.length).drop 48 =
        padTo 10 (natDigits c.length) ++ [96, 10] := by
      rw [encHeader_split]
      apply List.drop_left'
      simp [padTo, strB_100644_length]
      omega
    rw [hdrop]
    have htake : (padTo 10 (natDigits c.length) ++ [96, 10]).take 10 =
        padTo 10 (natDigits c.length) :=
      List.take_left' (padTo_length_of_le hd)
    rw [htake]
    have hdig := natDigits_all_digit c.length
    have hascii : asciiIgnore (padTo 10 (natDigits c.length)) =
        padTo 10 (natDigits c.length) := by
      apply asciiIgnore_eq_self
      intro a hha
      rcases List.mem_append.mp hha with hmem | hmem
      · have := List.all_eq_true.mp hdig a hmem
        simp [isDigitB] at this
        omega
      · have := List.eq_of_mem_replicate hmem
        omega
    rw [hascii]
    unfold padTo
    exact pyStrip_pad _ (pyStrip_of_all_digit hdig)
  unfold sizeField
  rw [hraw, if_neg (natDigits_ne_nil c.length)]

theorem restAfter_encMember {n c : List Nat} (tail : List Nat)
    (h16 : n.length ≤ 16) (hd : (natDigits c.length).length ≤ 10) :
    restAfter c.length (encMember n c ++ tail) = tail := by
  unfold restAfter
  rw [drop60_encMember tail h16 hd, List.drop_left' rfl]
  by_cases hodd : c.length % 2 = 1
  · simp [hodd]
  · simp [hodd]

theorem encMember_length {n c : List Nat} (h16 : n.length ≤ 16)
    (hd : (natDigits c.length).length ≤ 10) :
    (encMember n c).length =
      60 + c.length + (if c.length % 2 = 1 then 1 else 0) := by
  simp [encMember, encHeader_length h16 hd]
  by_cases hodd : c.length % 2 = 1 <;> simp [hodd] <;> omega

theorem readLoop_nil (fuel : Nat) : readLoop fuel [] = some [] := by
  cases fuel <;> rfl

/-- The reader inverts the writer on any member list whose names are
16-byte-max ASCII, strip-invariant, and slash-free, and whose contents
have at-most-10-digit sizes. -/
theorem readLoop_encMembers :
    ∀ (ms : List (List Nat × List Nat)) (fuel : Nat),
      (encMembers ms).length ≤ fuel →
      (∀ p ∈ ms, memberOk p.1 p.2 = true ∧ pyStrip p.1 = p.1 ∧
        rstripSlash p.1 = p.1) →
      readLoop fuel (encMembers ms) = some ms := by
  intro ms
  induction ms with
  | nil => intro fuel _ _; exact readLoop_nil fuel
  | cons p ms ih =>
    obtain ⟨n, c⟩ := p
    intro fuel hfuel hall
    obtain ⟨hOk, hs, hsl⟩ := hall (n, c) (by simp)
    obtain ⟨h16, ha, hd⟩ := memberOk_elim hOk
    dsimp only at hOk hs hsl h16 ha hd
    have hlen : (encMembers ((n, c) :: ms)).length =
        60 + c.length + (if c.length % 2 = 1 then 1 else 0) +
          (encMembers ms).length := by
      simp only [encMembers, List.length_append, encMember_length h16 hd]
    have hge : 60 ≤ (encMembers ((n, c) :: ms)).length := by
      rw [hlen]; omega
    cases fuel with
    | zero => omega
    | succ f =>
      have hcons : ∃ b bs, encMembers ((n, c) :: ms) = b :: bs := by
        cases hE : encMembers ((n, c) :: ms) with
        | nil => rw [hE] at hge; simp at hge
        | cons b bs => exact ⟨b, bs, rfl⟩
      obtain ⟨b, bs, hE⟩ := hcons
      have hEm : encMembers ((n, c) :: ms) = encMember n c ++ encMembers ms :=
        rfl
      rw [hE]
      show readLoop (f + 1) (b :: bs) = _
      simp only [readLoop]
      rw [← hE, hEm]
      rw [if_neg (by rw [← hEm]; omega)]
      rw [sizeField_encMember (encMembers ms) h16 hd, parseDec_natDigits]
      dsimp only
      rw [restAfter_encMember (encMembers ms) h16 hd]
      have hfuel' : (encMembers ms).length ≤ f := by omega
      rw [ih f hfuel' (fun q hq => hall q (List.mem_cons_of_mem _ hq))]
      dsimp only
      rw [memberName_encMember (encMembers ms) h16 ha hs hsl hd]
      rw [drop60_encMember (encMembers ms) h16 hd, List.take_left' rfl]

/-- Helper: parsing a serialized member list whose members all pass the
writer's checks and have canonical (strip-invariant, slash-free) names. -/
theorem readAr_encMembers {ms : List (List Nat × List Nat)}
    (h : ∀ p ∈ ms, memberOk p.1 p.2 = true ∧ pyStrip p.1 = p.1 ∧
      rstripSlash p.1 = p.1) :
    readAr (arMagic ++ encMembers ms) = some ms := by
  unfold readAr
  rw [List.take_left' (by decide), if_pos rfl]
  rw [List.drop_left' (by decide)]
  apply readLoop_encMembers ms _ _ h
  simp [arMagic, strB]
  omega

/-- Helper: parsing a successfully written container. -/
theorem readAr_writeAr {ms : List (List Nat × List Nat)} {bs : List Nat}
    (hw : writeAr ms = some bs)
    (hnames : ∀ p ∈ ms, pyStrip p.1 = p.1 ∧ rstripSlash p.1 = p.1) :
    readAr bs = some ms := by
  unfold writeAr at hw
  cases haux : writeArAux ms with
  | none => rw [haux] at hw; simp at hw
  | some r =>
    rw [haux] at hw
    simp only [Option.map_some'] at hw
    obtain ⟨hr, hOk⟩ := writeArAux_some haux
    subst hr
    have h2 := Option.some.inj hw
    subst h2
    exact readAr_encMembers (fun p hp =>
      ⟨hOk p hp, (hnames p hp).1, (hnames p hp).2⟩)

/-- For a name of at most 16 bytes the assembler's `add` and
`_add_ar_member` render members identically. -/
theorem encMemberA_eq_encMember {n : List Nat} (h16 : n.length ≤ 16)
    (c : List Nat) : encMemberA n c = encMember n c := by
  unfold encMemberA encMember encHeader
  rw [List.take_of_length_le (le_of_eq (padTo_length_of_le h16))]

/-- Rendering `_assemble_deb` with `lzma_alone=True`: the magic followed by the
three serialized members. -/
theorem assembleDeb_eq (debbin control dataTar : List Nat)
    (body : List Nat → List Nat) :
    assembleDeb debbin control dataTar true body =
      arMagic ++ encMembers
        [(strB "debian-binary", if debbin = [] then strB "2.0\n" else debbin),
         (strB "control.tar.gz", control),
         (strB "data.tar.lzma", lzmaCompressAlone body dataTar)] := by
  unfold assembleDeb
  rw [if_pos rfl, if_pos rfl]
  rw [encMemberA_eq_encMember (by decide), encMemberA_eq_encMember (by decide),
    encMemberA_eq_encMember (by decide)]
  simp only [encMembers, List.append_assoc, List.append_nil]

/-- C1 (counterexample): the container with the single member named
`"a "` (a name with a trailing space) serializes successfully, but
parsing the output yields the member name `"a"` — the whitespace
stripping in `_read_ar_members` loses the original name, so
`Read(Write(c)) ≠ c`. -/
theorem ar_round_trip_cex :
    Option.bind (writeAr [([97, 32], [])]) readAr = some [([97], [])] ∧
      ([([97], [])] : List (List Nat × List Nat)) ≠ [([97, 32], [])] := by
  constructor
  · decide
  · decide

/-- C1 (amended): the container codec round-trips every container whose
serialization succeeds (names of at most 16 ASCII bytes, contents below
10^10 bytes) *and* whose member names are left unchanged by
whitespace-stripping and trailing-slash-stripping — the reader
normalizes names, so only canonical names survive unchanged. -/
theorem ar_write_read_round_trip (c : List (List Nat × List Nat))
    (bs : List Nat) (hw : writeAr c = some bs)
    (hnames : ∀ p ∈ c, pyStrip p.1 = p.1 ∧ rstripSlash p.1 = p.1) :
    readAr bs = some c :=
  readAr_writeAr hw hnames

/-- C1 (witness): a concrete two-member container round-trips. -/
theorem ar_write_read_round_trip_witness :
    writeAr [([97], [120, 121]), ([98, 46, 99], [1, 2, 3])] =
      some (arMagic ++
        encMembers [([97], [120, 121]), ([98, 46, 99], [1, 2, 3])]) ∧
    readAr (arMagic ++
        encMembers [([97], [120, 121]), ([98, 46, 99], [1, 2, 3])]) =
      some [([97], [120, 121]), ([98, 46, 99], [1, 2, 3])] :=
  ⟨by decide,
   ar_write_read_round_trip _ _ (by decide) (by decide)⟩

/-- C2 (counterexample): `_assemble_deb` writes the `debian_binary`
bytes of the parsed source package through unchanged, so a source whose
version-stamp member holds `"3.0\n"` produces an output package whose
version-stamp content is `"3.0\n"`, not the fixed constant `"2.0\n"`. -/
theorem assembler_version_stamp_cex :
    readAr (assembleDeb (strB "3.0\n") [] [] true (fun x => x)) =
      some [(strB "debian-binary", strB "3.0\n"),
            (strB "control.tar.gz", []),
            (strB "data.tar.lzma", lzmaCompressAlone (fun x => x) [])] ∧
      strB "3.0\n" ≠ strB "2.0\n" := by
  constructor
  · rw [assembleDeb_eq]
    decide
  · decide

/-- C2 (amended): both writers emit the member order
`[debian-binary, control.tar.gz, data.tar.lzma]`.  `write_deb` always
stamps `"2.0\n"`; `_assemble_deb` (with `lzma_alone`) stamps the
`debian_binary` bytes supplied from the parsed source, substituting
`"2.0\n"` only when they are empty, so its version stamp equals the
constant exactly when the source's did (or was empty). -/
theorem assembler_layout (debbin control dataTar bs : List Nat)
    (body : List Nat → List Nat)
    (hw : writeDeb control dataTar = some bs)
    (hdb : debbin.length < 10 ^ 10)
    (hc : control.length < 10 ^ 10)
    (hcp : (lzmaCompressAlone body dataTar).length < 10 ^ 10) :
    readAr bs = some [(strB "debian-binary", strB "2.0\n"),
                      (strB "control.tar.gz", control),
                      (strB "data.tar.lzma", dataTar)] ∧
    readAr (assembleDeb debbin control dataTar true body) =
      some [(strB "debian-binary",
              if debbin = [] then strB "2.0\n" else debbin),
            (strB "control.tar.gz", control),
            (strB "data.tar.lzma", lzmaCompressAlone body dataTar)] := by
  constructor
  · exact readAr_writeAr hw (by
      intro p hp
      simp only [List.mem_cons, List.not_mem_nil, or_false] at hp
      rcases hp with rfl | rfl | rfl <;> (dsimp only; exact ⟨by decide, by decide⟩))
  · rw [assembleDeb_eq]
    apply readAr_encMembers
    intro p hp
    simp only [List.mem_cons, List.not_mem_nil, or_false] at hp
    rcases hp with rfl | rfl | rfl
    · dsimp only
      refine ⟨memberOk_intro (by decide) (by decide) ?_, by decide, by decide⟩
      by_cases hdb0 : debbin = []
      · simp only [hdb0, if_pos rfl]
        decide
      · simp only [if_neg hdb0]
        exact natDigits_length_le _ hdb
    · dsimp only
      exact ⟨memberOk_intro (by decide) (by decide)
        (natDigits_length_le _ hc), by decide, by decide⟩
    · dsimp only
      exact ⟨memberOk_intro (by decide) (by decide)
        (natDigits_length_le _ hcp), by decide, by decide⟩

/-- C2 (witness): concrete empty control and data members. -/
theorem assembler_layout_witness :
    readAr (arMagic ++ encMembers
        [(strB "debian-binary", strB "2.0\n"), (strB "control.tar.gz", []),
         (strB "data.tar.lzma", [])]) =
      some [(strB "debian-binary", strB "2.0\n"), (strB "control.tar.gz", []),
            (strB "data.tar.lzma", [])] ∧
    readAr (assembleDeb (strB "2.0\n") [] [] true (fun x => x)) =
      some [(strB "debian-binary", strB "2.0\n"), (strB "control.tar.gz", []),
            (strB "data.tar.lzma", lzmaCompressAlone (fun x => x) [])] :=
  assembler_layout (strB "2.0\n") [] [] _ (fun x => x)
    (by decide) (by decide) (by decide) (by decide)

/-- C3: the length-preserving patch guard of `replace_ip_in_binary`:
whenever the two literals differ in length the function reports failure
and the file bytes are returned exactly as they were read — no
substitution of any kind is performed. -/
theorem apply_literal_length_guard (old new data : List Nat)
    (h : old.length ≠ new.length) :
    replaceIpInBinary old new data = (data, false) := by
  unfold replaceIpInBinary
  rw [if_pos h]

/-- C3 (witness): a 12-character and a 7-character literal. -/
theorem apply_literal_length_guard_witness :
    (strB "10.10.10.100").length ≠ (strB "1.2.3.4").length ∧
    replaceIpInBinary (strB "10.10.10.100") (strB "1.2.3.4")
        (strB "x10.10.10.100y") = (strB "x10.10.10.100y", false) :=
  ⟨by decide, apply_literal_length_guard _ _ _ (by decide)⟩

/-- C4 (counterexample): on the empty byte sequence the patch window is
out of bounds, so the *first* application is already "skipped", refuting
"applied on the first call" for arbitrary input. -/
theorem offset_patch_first_call_cex :
    (applyOffsetPatch [] 0 [1] [2]).2 = false ∧
    (applyOffsetPatch [] 0 [1] [2]).1 = [] := by
  constructor
  · decide
  · decide

/-- C4 (amended): when the expected bytes do match at the offset (within
bounds) and the replacement has the same length but differs from them,
the first application is "applied", the second is "skipped" (the window
now holds the replacement), and the bytes after the second call equal the
bytes after the first. -/
theorem offset_patch_idempotent (data : List Nat) (off : Nat)
    (old new : List Nat)
    (hb : off + old.length ≤ data.length)
    (hm : (data.drop off).take old.length = old)
    (hl : old.length = new.length)
    (hne : new ≠ old) :
    (applyOffsetPatch data off old new).2 = true ∧
    applyOffsetPatch (applyOffsetPatch data off old new).1 off old new =
      ((applyOffsetPatch data off old new).1, false) := by
  have hoff : off ≤ data.length := by omega
  have h1 : applyOffsetPatch data off old new =
      (data.take off ++ new ++ data.drop (off + old.length), true) := by
    unfold applyOffsetPatch
    rw [if_neg (by omega), if_pos hm]
  refine ⟨by rw [h1], ?_⟩
  rw [h1]
  dsimp only
  have hlen1 : (data.take off).length = off := by
    simp [List.length_take]
    omega
  have hlen : (data.take off ++ new ++ data.drop (off + old.length)).length =
      data.length := by
    simp [List.length_append, hlen1, List.length_drop]
    omega
  have hdrop : (data.take off ++ new ++ data.drop (off + old.length)).drop off =
      new ++ data.drop (off + old.length) := by
    rw [List.append_assoc]
    exact List.drop_left' hlen1
  unfold applyOffsetPatch
  rw [if_neg (by omega), hdrop, hl, List.take_left, if_neg hne]

/-- C4 (witness): patching `[5, 6, 7]` at offset 1 from `[6]` to `[9]`. -/
theorem offset_patch_idempotent_witness :
    (applyOffsetPatch [5, 6, 7] 1 [6] [9]).2 = true ∧
    applyOffsetPatch (applyOffsetPatch [5, 6, 7] 1 [6] [9]).1 1 [6] [9] =
      ((applyOffsetPatch [5, 6, 7] 1 [6] [9]).1, false) :=
  offset_patch_idempotent [5, 6, 7] 1 [6] [9]
    (by decide) (by decide) (by decide) (by decide)

/-- C10: offset patches whose window exceeds the data are skipped
without an error and leave the data untouched (`continue` before any
read), and an equal-length patch never changes the data's length — the
patcher never reads or writes past the end. -/
theorem offset_patch_bounds_safe (data : List Nat) (off : Nat)
    (old new : List Nat) :
    (data.length < off + old.length →
      applyOffsetPatch data off old new = (data, false)) ∧
    (old.length = new.length →
      (applyOffsetPatch data off old new).1.length = data.length) := by
  constructor
  · intro h
    unfold applyOffsetPatch
    rw [if_pos h]
  · intro hl
    unfold applyOffsetPatch
    by_cases hb : data.length < off + old.length
    · rw [if_pos hb]
    · rw [if_neg hb]
      by_cases hm : (data.drop off).take old.length = old
      · rw [if_pos hm]
        dsimp only
        simp [List.length_append, List.length_take, List.length_drop]
        omega
      · rw [if_neg hm]

/-- C10 (witness): offset 3 with a 2-byte window on 1-byte data. -/
theorem offset_patch_bounds_safe_witness :
    applyOffsetPatch [7] 3 [1, 2] [3, 4] = ([7], false) ∧
    (applyOffsetPatch [7] 3 [1, 2] [3, 4]).1.length = ([7] : List Nat).length :=
  ⟨(offset_patch_bounds_safe [7] 3 [1, 2] [3, 4]).1 (by decide),
   (offset_patch_bounds_safe [7] 3 [1, 2] [3, 4]).2 (by decide)⟩

/-- C5: the legacy framing signature.  `Compress` output begins with the
properties byte and the little-endian dictionary size — its first five
bytes are `5D 00 00 80 00`, never the XZ magic `FD 37 7A 58 5A` — the
alone-format decoder rejects any XZ-framed stream (its first byte 0xFD
is not a valid properties byte), and the validator's signature check
accepts every `Compress` output and fails XZ-framed payloads. -/
theorem legacy_framing_signature (body : List Nat → List Nat)
    (data rest : List Nat) :
    (lzmaCompressAlone body data).take 5 = [93, 0, 0, 128, 0] ∧
    (lzmaCompressAlone body data).take 5 ≠ xzMagicBytes.take 5 ∧
    lzmaAloneHeaderOk (xzMagicBytes ++ rest) = false ∧
    sigVerdict (lzmaCompressAlone body data) = 0 ∧
    sigVerdict (xzMagicBytes ++ rest) = 1 := by
  have htake : (lzmaCompressAlone body data).take 5 = [93, 0, 0, 128, 0] := rfl
  refine ⟨htake, by rw [htake]; decide, ?_, ?_, ?_⟩
  · simp [lzmaAloneHeaderOk, xzMagicBytes]
  · rfl
  · unfold sigVerdict
    rw [List.take_left' (by decide)]
    decide

/-- C7: the determinism failure.  The effective data-tar builder copies
the filesystem modification time into each file entry (it never assigns
`tinfo.mtime`), so two trees with identical names and contents but
different mtimes — exactly what two runs at different times produce —
yield different entry sequences; the claimed constant-zero timestamp does
not hold (the entry's mtime is 5, not 0). -/
theorem build_mtime_not_normalized :
    (buildDataTarEntries
        [⟨[⟨strB "f", strB "f", strB ".", [1, 2], 5⟩], []⟩]).map
      (fun e => e.mtime) = [5] ∧
    buildDataTarEntries [⟨[⟨strB "f", strB "f", strB ".", [1, 2], 5⟩], []⟩] ≠
      buildDataTarEntries
        [⟨[⟨strB "f", strB "f", strB ".", [1, 2], 7⟩], []⟩] := by
  constructor
  · decide
  · decide

/-- C8 (counterexample): the data (payload) archive's entries carry group
name `wheel`, not `root` — the effective `_build_data_tar_from_dir` sets
`tinfo.gname = 'wheel'` for files and directories alike. -/
theorem data_tar_ownership_cex :
    (buildDataTarEntries
        [⟨[⟨strB "f", strB "f", strB ".", [1], 5⟩], []⟩]).map
      (fun e => e.gname) = [strB "wheel"] ∧
    strB "wheel" ≠ strB "root" := by
  constructor
  · decide
  · decide

/-- C8 (amended): every entry of the payload (data) archive and every
entry of the metadata (control) archive carries uid 0, gid 0, user name
`root`, and group name `wheel` — the two builders force identical
root/wheel ownership. -/
theorem archive_ownership (walk : List WalkDir) :
    (∀ e ∈ buildDataTarEntries walk, e.uid = 0 ∧ e.gid = 0 ∧
      e.uname = strB "root" ∧ e.gname = strB "wheel") ∧
    (∀ e ∈ buildControlTarEntries walk, e.uid = 0 ∧ e.gid = 0 ∧
      e.uname = strB "root" ∧ e.gname = strB "wheel") := by
  constructor
  · intro e he
    simp only [buildDataTarEntries, List.mem_flatMap, List.mem_append,
      List.mem_map] at he
    obtain ⟨w, _, hc⟩ := he
    rcases hc with ⟨f, _, rfl⟩ | ⟨d, _, rfl⟩ <;> exact ⟨rfl, rfl, rfl, rfl⟩
  · intro e he
    simp only [buildControlTarEntries, List.mem_flatMap, List.mem_map] at he
    obtain ⟨w, _, f, _, rfl⟩ := he
    exact ⟨rfl, rfl, rfl, rfl⟩

/-! ## Pairwise-order lemmas for the `rglob` builders -/

theorem pairB_imp {R S : RgEntry → RgEntry → Bool}
    (h : ∀ x y, R x y = true → S x y = true) :
    ∀ {l : List RgEntry}, pairB R l = true → pairB S l = true := by
  intro l
  induction l with
  | nil => intro; rfl
  | cons x xs ih =>
    intro hp
    simp only [pairB, Bool.and_eq_true, List.all_eq_true] at hp ⊢
    exact ⟨fun z hz => h x z (hp.1 z hz), ih hp.2⟩

theorem pairB_of_sublist {R : RgEntry → RgEntry → Bool} :
    ∀ {a b : List RgEntry}, a.Sublist b → pairB R b = true →
      pairB R a = true := by
  intro a b h
  induction h with
  | slnil => intro; rfl
  | cons y _ ih =>
    intro hb
    simp only [pairB, Bool.and_eq_true, List.all_eq_true] at hb
    exact ih hb.2
  | cons₂ y h ih =>
    intro hb
    simp only [pairB, Bool.and_eq_true, List.all_eq_true] at hb ⊢
    exact ⟨fun z hz => hb.1 z (h.subset hz), ih hb.2⟩

theorem pairB_append_true {R : RgEntry → RgEntry → Bool}
    {a b : List RgEntry} (ha : pairB R a = true) (hb : pairB R b = true)
    (hab : ∀ x ∈ a, ∀ y ∈ b, R x y = true) : pairB R (a ++ b) = true := by
  induction a with
  | nil => simpa using hb
  | cons x xs ih =>
    simp only [pairB, Bool.and_eq_true, List.all_eq_true] at ha
    simp only [List.cons_append, pairB, Bool.and_eq_true, List.all_eq_true]
    refine ⟨?_, ih ha.2 (fun z hz => hab z (by simp [hz]))⟩
    intro z hz
    rcases List.mem_append.mp hz with hz | hz
    · exact ha.1 z hz
    · exact hab x (by simp) z hz

/-- C9 (counterexample): `change_maintainer.build_data_tar` adds only
files, so for the tree with directory `a` holding file `a/b` the archive
contains no entry for `a` at all — a directory entry cannot appear
before its descendants because it never appears. -/
theorem cm_build_no_dir_entries_cex :
    buildDataTarCM [⟨[strB "a"], true⟩, ⟨[strB "a", strB "b"], false⟩] =
      [⟨[strB "a", strB "b"], false⟩] ∧
    (⟨[strB "a"], true⟩ : RgEntry) ∉
      buildDataTarCM [⟨[strB "a"], true⟩, ⟨[strB "a", strB "b"], false⟩] := by
  constructor
  · decide
  · decide

/-- C9 (amended): for `deb_packer.build_data_tar` the claim holds: every
directory of the tree has an entry in the archive, and (given that
`rglob` lists every directory before the entries beneath it) no entry is
ever followed by a directory entry of one of its ancestors — i.e. every
directory entry precedes all entries below that directory.
`change_maintainer.build_data_tar`, by contrast, emits no directory
entries at all. -/
theorem packer_dirs_before_descendants (tree : List RgEntry)
    (h : pairB ancFirst tree = true) :
    pairB dirBefore (buildDataTarPk tree) = true ∧
    ∀ e ∈ tree, e.isDir = true → e ∈ buildDataTarPk tree := by
  constructor
  · unfold buildDataTarPk
    have hRS : ∀ x y, ancFirst x y = true → dirBefore x y = true := by
      intro x y hxy
      simp only [ancFirst, Bool.not_eq_true'] at hxy
      simp [dirBefore, hxy]
    apply pairB_append_true
    · exact pairB_imp hRS (pairB_of_sublist (List.filter_sublist tree) h)
    · exact pairB_imp hRS (pairB_of_sublist (List.filter_sublist tree) h)
    · intro x _ y hy
      have : y.isDir = false := by
        have := (List.mem_filter.mp hy).2
        simpa using this
      simp [dirBefore, this]
  · intro e he hd
    unfold buildDataTarPk
    exact List.mem_append_left _ (List.mem_filter.mpr ⟨he, hd⟩)

/-- C9 (witness): the two-entry tree `[dir a, file a/b]`. -/
theorem packer_dirs_before_descendants_witness :
    pairB dirBefore (buildDataTarPk
      [⟨[strB "a"], true⟩, ⟨[strB "a", strB "b"], false⟩]) = true ∧
    (⟨[strB "a"], true⟩ : RgEntry) ∈ buildDataTarPk
      [⟨[strB "a"], true⟩, ⟨[strB "a", strB "b"], false⟩] :=
  ⟨(packer_dirs_before_descendants _ (by decide)).1,
   (packer_dirs_before_descendants _ (by decide)).2 _ (by decide) rfl⟩

/-! ## Metadata patcher lemmas -/

/-- The lines `splitlines` produces contain no line-break characters. -/
theorem slAux_mem_breakFree :
    ∀ (n : Nat) (cs : List Nat), cs.length ≤ n →
      ∀ (acc : List Nat), (∀ c ∈ acc, isLineBreak c = false) →
        ∀ l ∈ slAux acc cs, ∀ c ∈ l, isLineBreak c = false := by
  intro n
  induction n with
  | zero =>
    intro cs hlen acc hacc l hl c hc
    have hcs : cs = [] := by
      cases cs with
      | nil => rfl
      | cons a cs' => simp at hlen
    subst hcs
    rw [slAux.eq_1] at hl
    by_cases h0 : acc = []
    · rw [if_pos h0] at hl
      simp at hl
    · rw [if_neg h0] at hl
      simp at hl
      subst hl
      exact hacc c (List.mem_reverse.mp hc)
  | succ n ih =>
    intro cs hlen acc hacc l hl c hc
    rcases cs with _ | ⟨a, cs'⟩
    · exact ih [] (by simp) acc hacc l hl c hc
    · by_cases ha13 : a = 13
      · subst ha13
        rcases cs' with _ | ⟨b, cs2⟩
        · rw [slAux.eq_3 _ _ _ (by intro cs1 _ h2; cases h2)] at hl
          rw [if_pos (by decide)] at hl
          rcases List.mem_cons.mp hl with rfl | hl
          · exact hacc c (List.mem_reverse.mp hc)
          · exact ih [] (by simp) [] (by simp) l hl c hc
        · by_cases hb10 : b = 10
          · subst hb10
            rw [slAux.eq_2] at hl
            rcases List.mem_cons.mp hl with rfl | hl
            · exact hacc c (List.mem_reverse.mp hc)
            · exact ih cs2 (by simp at hlen ⊢; omega) [] (by simp) l hl c hc
          · rw [slAux.eq_3 _ _ _
              (by intro cs1 _ h2; exact hb10 (List.head_eq_of_cons_eq h2))] at hl
            rw [if_pos (by decide)] at hl
            rcases List.mem_cons.mp hl with rfl | hl
            · exact hacc c (List.mem_reverse.mp hc)
            · exact ih (b :: cs2) (by simp at hlen ⊢; omega) [] (by simp) l hl c hc
      · rw [slAux.eq_3 _ _ _ (fun cs1 h1 _ => ha13 h1)] at hl
        by_cases hbr : isLineBreak a = true
        · rw [if_pos hbr] at hl
          rcases List.mem_cons.mp hl with rfl | hl
          · exact hacc c (List.mem_reverse.mp hc)
          · exact ih cs' (by simp at hlen; omega) [] (by simp) l hl c hc
        · rw [if_neg hbr] at hl
          refine ih cs' (by simp at hlen; omega) (a :: acc) ?_ l hl c hc
          intro d hd
          rcases List.mem_cons.mp hd with rfl | hd
          · exact Bool.eq_false_iff.mpr hbr
          · exact hacc d hd

theorem pySplitlines_breakFree (text : List Nat) :
    ∀ l ∈ pySplitlines text, ∀ c ∈ l, isLineBreak c = false :=
  slAux_mem_breakFree text.length text (le_refl _) [] (by simp)

/-- Scanning one break-free line followed by a newline emits that line. -/
theorem slAux_append_line (l : List Nat)
    (hl : ∀ c ∈ l, isLineBreak c = false) :
    ∀ (acc rest : List Nat),
      slAux acc (l ++ 10 :: rest) = (acc.reverse ++ l) :: slAux [] rest := by
  induction l with
  | nil =>
    intro acc rest
    rw [List.nil_append,
      slAux.eq_3 _ _ _ (by intro cs1 h1 _; exact absurd h1 (by decide)),
      if_pos (by decide)]
    simp
  | cons x l ih =>
    intro acc rest
    have hx : isLineBreak x = false := hl x (by simp)
    have hx13 : x ≠ 13 := by
      intro h
      rw [h] at hx
      exact absurd hx (by decide)
    rw [List.cons_append, slAux.eq_3 _ _ _ (fun cs1 h1 _ => hx13 h1),
      if_neg (by simp [hx])]
    rw [ih (fun c hc => hl c (by simp [hc])) (x :: acc) rest]
    simp

/-- Split-lines inverts `'\n'.join(…) + '\n'` on non-empty lists of
break-free lines. -/
theorem pySplitlines_joinNL :
    ∀ (ls : List (List Nat)), ls ≠ [] →
      (∀ l ∈ ls, ∀ c ∈ l, isLineBreak c = false) →
      pySplitlines (joinNL ls) = ls := by
  intro ls
  induction ls with
  | nil => intro h; exact absurd rfl h
  | cons l ls ih =>
    intro _ hbf
    cases ls with
    | nil =>
      show slAux [] (joinNL [l]) = [l]
      have : joinNL [l] = l ++ 10 :: [] := by simp [joinNL, joinLines]
      rw [this, slAux_append_line l (hbf l (by simp)) [] []]
      rfl
    | cons l2 ls2 =>
      show slAux [] (joinNL (l :: l2 :: ls2)) = l :: l2 :: ls2
      have hj : joinNL (l :: l2 :: ls2) = l ++ 10 :: joinNL (l2 :: ls2) := by
        simp [joinNL, joinLines]
      rw [hj, slAux_append_line l (hbf l (by simp)) [] (joinNL (l2 :: ls2))]
      simp only [List.reverse_nil, List.nil_append]
      have := ih (by simp) (fun q hq c hc => hbf q (by simp [hq]) c hc)
      rw [show pySplitlines (joinNL (l2 :: ls2)) = slAux [] (joinNL (l2 :: ls2))
        from rfl] at this
      rw [this]

/-- With no author edit and no debranding, the scan replaces every
`Maintainer:` line and keeps everything else verbatim; the found flag is
`any`. -/
theorem mmScan_simple (newM : List Nat) :
    ∀ ls : List (List Nat),
      mmScan newM none false ls =
        (ls.map (fun l => if leadsWith (strB "Maintainer:") l = true
            then strB "Maintainer: " ++ newM else l),
         ls.any (fun l => leadsWith (strB "Maintainer:") l), false) := by
  intro ls
  induction ls with
  | nil => rfl
  | cons l ls ih =>
    by_cases hM : leadsWith (strB "Maintainer:") l = true <;>
      simp [mmScan, hM, ih]

/-- C6 (counterexample): on a control text with two `Maintainer:` lines,
`modify_maintainer` rewrites *both* (its loop replaces every line
starting with `"Maintainer:"`), so the duplicate is not preserved
verbatim as the claim states. -/
theorem metadata_first_match_cex :
    modifyMaintainer (strB "Maintainer: Michael\nMaintainer: Bob\n")
        (strB "kox") none false =
      strB "Maintainer: kox\nMaintainer: kox\n" ∧
    modifyMaintainer (strB "Maintainer: Michael\nMaintainer: Bob\n")
        (strB "kox") none false ≠
      strB "Maintainer: kox\nMaintainer: Bob\n" := by
  constructor
  · decide
  · decide

/-- C6 (amended): `setField` rewrites *every* line starting with
`"Maintainer:"` (not only the first) and reproduces every other line
verbatim in its original order; on the claim's duplicate-free example it
behaves exactly as stated, producing `"Maintainer: kox\nAuthor:
Someone\n"` with exactly one Maintainer line. -/
theorem metadata_set_field (text newM : List Nat)
    (hM : (pySplitlines text).any
      (fun l => leadsWith (strB "Maintainer:") l) = true)
    (hnb : ∀ c ∈ newM, isLineBreak c = false) :
    pySplitlines (modifyMaintainer text newM none false) =
      (pySplitlines text).map
        (fun l => if leadsWith (strB "Maintainer:") l = true
          then strB "Maintainer: " ++ newM else l) ∧
    modifyMaintainer (strB "Maintainer: Michael\nAuthor: Someone\n")
        (strB "kox") none false =
      strB "Maintainer: kox\nAuthor: Someone\n" ∧
    ((pySplitlines (modifyMaintainer
          (strB "Maintainer: Michael\nAuthor: Someone\n") (strB "kox")
          none false)).filter
        (fun l => leadsWith (strB "Maintainer:") l)).length = 1 := by
  refine ⟨?_, by decide, by decide⟩
  unfold modifyMaintainer
  rw [mmScan_simple]
  have hins : mmInsert newM none
      ((pySplitlines text).map
        (fun l => if leadsWith (strB "Maintainer:") l = true
          then strB "Maintainer: " ++ newM else l),
       (pySplitlines text).any (fun l => leadsWith (strB "Maintainer:") l),
       false) =
      (pySplitlines text).map
        (fun l => if leadsWith (strB "Maintainer:") l = true
          then strB "Maintainer: " ++ newM else l) := by
    unfold mmInsert
    rw [if_neg (by simp)]
    dsimp only
    rw [if_pos hM]
  rw [hins]
  apply pySplitlines_joinNL
  · intro h
    have hne : pySplitlines text = [] := by
      rcases he : pySplitlines text with _ | ⟨a, ls⟩
      · rfl
      · rw [he] at h; simp at h
    rw [hne] at hM
    simp at hM
  · intro l hl c hc
    rcases List.mem_map.mp hl with ⟨l0, hl0, rfl⟩
    by_cases hm : leadsWith (strB "Maintainer:") l0 = true
    · rw [if_pos hm] at hc
      rcases List.mem_append.mp hc with hc | hc
      · revert hc
        have : ∀ c ∈ strB "Maintainer: ", isLineBreak c = false := by decide
        exact this c
      · exact hnb c hc
    · rw [if_neg hm] at hc
      exact pySplitlines_breakFree text l0 hl0 c hc

/-- C6 (witness): the claim's example text. -/
theorem metadata_set_field_witness :
    (pySplitlines (strB "Maintainer: Michael\nAuthor: Someone\n")).any
        (fun l => leadsWith (strB "Maintainer:") l) = true ∧
    pySplitlines (modifyMaintainer
        (strB "Maintainer: Michael\nAuthor: Someone\n") (strB "kox")
        none false) =
      (pySplitlines (strB "Maintainer: Michael\nAuthor: Someone\n")).map
        (fun l => if leadsWith (strB "Maintainer:") l = true
          then strB "Maintainer: " ++ strB "kox" else l) :=
  ⟨by decide,
   (metadata_set_field (strB "Maintainer: Michael\nAuthor: Someone\n")
      (strB "kox") (by decide) (by decide)).1⟩

/-! ## Model validation on concrete inputs -/

example : pySplitlines [] = [] := by decide
example : pySplitlines (strB "\n") = [[]] := by decide
example : pySplitlines (strB "a\r\nb\rc\n") =
    [strB "a", strB "b", strB "c"] := by decide
example : natDigits 0 = strB "0" := by decide
example : natDigits 1234 = strB "1234" := by decide
example : pyStrip (strB "  a b  ") = strB "a b" := by decide
example : Option.bind (writeAr [(strB "debian-binary", strB "2.0\n")]) readAr =
    some (some [(strB "debian-binary", strB "2.0\n")]) := by decide
example : modifyMaintainer (strB "Package: x\n") (strB "kox") none false =
    strB "Maintainer: kox\nPackage: x\n" := by decide

end Vcam
